import Mathlib

/-!
Verification of the result-aggregation and summarization pipeline of the
grid_backtest dashboard (source: streamlit_static.py).

The pipeline is embedded shallowly:
* strings are manipulated through their character lists, with executable
  models of the Python primitives used by the source
  (str.split, str.replace, str.join, indexing);
* tables are lists of records; pandas concat is list flatten; pandas
  groupby-agg is modelled by grouping on the sorted distinct keys;
* numeric fields are rationals; fallible steps return Option or Except.
-/

namespace GridBacktest

/-- Prepend a character to the first chunk of a chunk list (helper for the
split scanner). -/
def consHead (c : Char) : List (List Char) → List (List Char)
  | [] => [[c]]
  | h :: t => (c :: h) :: t

/-- Fuelled scanner behind pySplitOn: walks the list left to right, cutting at
each leftmost non-overlapping occurrence of the pattern, exactly as Python
str.split does for a non-empty separator.  The fuel only needs to dominate the
length of the list. -/
def splitOnAux (pat : List Char) : List Char → Nat → List (List Char)
  | l, 0 => [l]
  | [], _ + 1 => [[]]
  | c :: rest, fuel + 1 =>
    if pat.isPrefixOf (c :: rest) then
      [] :: splitOnAux pat (List.drop (pat.length - 1) rest) fuel
    else
      consHead c (splitOnAux pat rest fuel)

/-- Python s.split(sep) for a non-empty separator sep, over character lists. -/
def pySplitOn (pat l : List Char) : List (List Char) :=
  if pat.isEmpty then [l] else splitOnAux pat l l.length

/-- Python sep.join(parts), over character lists. -/
def joinSep (sep : List Char) : List (List Char) → List Char
  | [] => []
  | [p] => p
  | p :: q :: rest => p ++ sep ++ joinSep sep (q :: rest)

/-- Python s.replace(pat, repl) for a non-empty pat: equivalent to splitting on
pat and joining with repl. -/
def pyReplace (pat repl l : List Char) : List Char :=
  if pat.isEmpty then l else joinSep repl (pySplitOn pat l)

/-- Python key.split('/')[-1]: the last path segment of a key. -/
def lastSeg (l : List Char) : List Char :=
  (pySplitOn ['/'] l).getLastD []

/-- Date-from-key extractor of the source
(key.split('/')[-1].replace('aggregated_results_', '').replace('.csv', '')).
Note that Python str.replace removes every occurrence of its pattern, not just
a leading or trailing one. -/
def file_date (key : String) : String :=
  String.mk (pyReplace ".csv".toList []
    (pyReplace "aggregated_results_".toList [] (lastSeg key.toList)))

/-- Remove pat from the front of l if it is a prefix of l, else leave l
unchanged (helper for the spec-worded extractor). -/
def dropPrefixIf (pat l : List Char) : List Char :=
  if pat.isPrefixOf l then l.drop pat.length else l

/-- Remove pat from the end of l if it is a suffix of l, else leave l
unchanged (helper for the spec-worded extractor). -/
def dropSuffixIf (pat l : List Char) : List Char :=
  (dropPrefixIf pat.reverse l.reverse).reverse

/-- Date-from-key extractor as worded by the spec: take the last path segment,
strip the literal prefix aggregated_results_ and the literal suffix .csv.
Stated for comparison with file_date, which is the source behavior. -/
def date_from_key_spec (key : String) : String :=
  String.mk (dropSuffixIf ".csv".toList
    (dropPrefixIf "aggregated_results_".toList (lastSeg key.toList)))

-- Basic facts about the scanner.

theorem splitOnAux_fuel (pat : List Char) :
    ∀ (f₁ f₂ : Nat) (l : List Char), l.length ≤ f₁ → l.length ≤ f₂ →
      splitOnAux pat l f₁ = splitOnAux pat l f₂ := by
  intro f₁
  induction f₁ with
  | zero =>
    intro f₂ l h₁ _
    have hl : l = [] := List.eq_nil_of_length_eq_zero (Nat.le_zero.mp h₁)
    subst hl
    cases f₂ <;> rfl
  | succ f ih =>
    intro f₂ l h₁ h₂
    cases l with
    | nil => cases f₂ <;> rfl
    | cons c rest =>
      cases f₂ with
      | zero => simp at h₂
      | succ g =>
        show splitOnAux pat (c :: rest) (f + 1) = splitOnAux pat (c :: rest) (g + 1)
        simp only [splitOnAux]
        have hdrop : (List.drop (pat.length - 1) rest).length ≤ rest.length := by
          rw [List.length_drop]; exact Nat.sub_le _ _
        have hr : rest.length ≤ f := Nat.le_of_succ_le_succ h₁
        have hg : rest.length ≤ g := Nat.le_of_succ_le_succ h₂
        by_cases hpre : pat.isPrefixOf (c :: rest)
        · rw [if_pos hpre, if_pos hpre, ih _ _ (le_trans hdrop hr) (le_trans hdrop hg)]
        · rw [if_neg hpre, if_neg hpre, ih _ _ hr hg]

theorem pySplitOn_nil (pat : List Char) (hp : pat ≠ []) : pySplitOn pat [] = [[]] := by
  unfold pySplitOn
  rw [if_neg (by simpa [List.isEmpty_iff] using hp)]
  rfl

theorem pySplitOn_pos (pat l : List Char) (hp : pat ≠ [])
    (h : pat.isPrefixOf l) : pySplitOn pat l = [] :: pySplitOn pat (l.drop pat.length) := by
  cases l with
  | nil =>
    exfalso
    have := List.isPrefixOf_iff_prefix.mp h
    exact hp (List.prefix_nil.mp this)
  | cons c rest =>
    unfold pySplitOn
    rw [if_neg (by simpa [List.isEmpty_iff] using hp), if_neg (by simpa [List.isEmpty_iff] using hp)]
    show splitOnAux pat (c :: rest) (rest.length + 1) = [] :: splitOnAux pat _ _
    have hstep : splitOnAux pat (c :: rest) (rest.length + 1)
        = [] :: splitOnAux pat (List.drop (pat.length - 1) rest) rest.length := by
      simp only [splitOnAux]
      rw [if_pos h]
    rw [hstep]
    have hpat1 : 1 ≤ pat.length := by
      cases pat with
      | nil => exact absurd rfl hp
      | cons a t => exact Nat.succ_le_succ (Nat.zero_le _)
    have hdropeq : List.drop (pat.length - 1) rest = (c :: rest).drop pat.length := by
      cases pat with
      | nil => exact absurd rfl hp
      | cons a t => simp [List.drop]
    rw [hdropeq]
    congr 1
    apply splitOnAux_fuel
    · rw [List.length_drop]
      show (c :: rest).length - pat.length ≤ rest.length
      calc (c :: rest).length - pat.length ≤ (c :: rest).length - 1 :=
            Nat.sub_le_sub_left hpat1 _
      _ = rest.length := by simp
    · exact le_refl _

theorem pySplitOn_neg (pat : List Char) (c : Char) (rest : List Char) (hp : pat ≠ [])
    (h : ¬ pat.isPrefixOf (c :: rest)) :
    pySplitOn pat (c :: rest) = consHead c (pySplitOn pat rest) := by
  unfold pySplitOn
  rw [if_neg (by simpa [List.isEmpty_iff] using hp), if_neg (by simpa [List.isEmpty_iff] using hp)]
  show splitOnAux pat (c :: rest) (rest.length + 1) = consHead c (splitOnAux pat rest rest.length)
  simp only [splitOnAux]
  rw [if_neg h]

theorem consHead_ne_nil (c : Char) (L : List (List Char)) : consHead c L ≠ [] := by
  cases L <;> simp [consHead]

theorem splitOnAux_ne_nil (pat : List Char) :
    ∀ (f : Nat) (l : List Char), splitOnAux pat l f ≠ [] := by
  intro f
  induction f with
  | zero => intro l; simp [splitOnAux]
  | succ f ih =>
    intro l
    cases l with
    | nil => simp [splitOnAux]
    | cons c rest =>
      by_cases hpre : pat.isPrefixOf (c :: rest)
      · simp [splitOnAux, hpre]
      · simp only [splitOnAux, hpre, if_false]
        exact consHead_ne_nil _ _

theorem pySplitOn_ne_nil (pat l : List Char) : pySplitOn pat l ≠ [] := by
  unfold pySplitOn
  by_cases hp : pat.isEmpty
  · simp [hp]
  · simp only [hp, if_false]
    exact splitOnAux_ne_nil _ _ _

-- Single-character split and join: the lemmas used for path segments, the
-- CSV round trip, and the plot-key index.

theorem isPrefixOf_single (c d : Char) (rest : List Char) :
    [c].isPrefixOf (d :: rest) = (c == d) := by
  simp [List.isPrefixOf]

theorem pySplitOn_single_not_mem (c : Char) (l : List Char) (h : c ∉ l) :
    pySplitOn [c] l = [l] := by
  induction l with
  | nil => exact pySplitOn_nil _ (by simp)
  | cons d rest ih =>
    have hcd : ¬ (c = d) := fun he => h (he ▸ List.mem_cons_self _ _)
    have hrest : c ∉ rest := fun hm => h (List.mem_cons_of_mem _ hm)
    rw [pySplitOn_neg [c] d rest (by simp)
      (by rw [isPrefixOf_single]; simpa using hcd), ih hrest]
    rfl

theorem pySplitOn_single_append (c : Char) (xs ys : List Char) :
    pySplitOn [c] (xs ++ c :: ys) = pySplitOn [c] xs ++ pySplitOn [c] ys := by
  induction xs with
  | nil =>
    rw [List.nil_append, pySplitOn_pos [c] (c :: ys) (by simp)
      (by rw [isPrefixOf_single]; simp), pySplitOn_nil _ (by simp)]
    rfl
  | cons d xs ih =>
    by_cases hdc : ([c].isPrefixOf (d :: (xs ++ c :: ys)) : Bool)
    · have hcd : c = d := by
        rw [isPrefixOf_single] at hdc
        exact eq_of_beq hdc
      subst hcd
      rw [show (c :: xs) ++ c :: ys = c :: (xs ++ c :: ys) from rfl,
        pySplitOn_pos [c] (c :: (xs ++ c :: ys)) (by simp)
          (by rw [isPrefixOf_single]; simp),
        pySplitOn_pos [c] (c :: xs) (by simp) (by rw [isPrefixOf_single]; simp)]
      simp only [List.length_cons, List.length_nil, List.drop_succ_cons, List.drop_zero]
      rw [ih]
      rfl
    · have hcd : ¬ [c].isPrefixOf (d :: xs) := by
        rw [isPrefixOf_single] at hdc ⊢
        exact hdc
      rw [show (d :: xs) ++ c :: ys = d :: (xs ++ c :: ys) from rfl,
        pySplitOn_neg [c] d (xs ++ c :: ys) (by simp) hdc,
        pySplitOn_neg [c] d xs (by simp) hcd, ih]
      cases h : pySplitOn [c] xs with
      | nil => exact absurd h (pySplitOn_ne_nil _ _)
      | cons p ps => rfl

theorem consHead_append (c : Char) (A B : List (List Char)) (hA : A ≠ []) :
    consHead c (A ++ B) = consHead c A ++ B := by
  cases A with
  | nil => exact absurd rfl hA
  | cons a t => rfl

theorem getLastD_append_single (A : List (List Char)) (x : List Char) :
    (A ++ [x]).getLastD [] = x := by
  induction A with
  | nil => rfl
  | cons a t ih =>
    rw [List.cons_append]
    cases h : t ++ [x] with
    | nil => exact absurd (List.append_eq_nil.mp h).2 (by simp)
    | cons b s =>
      show (b :: s).getLastD [] = x
      rw [← h, ih]

theorem lastSeg_append (xs ys : List Char) (hy : ('/' : Char) ∉ ys) :
    lastSeg (xs ++ '/' :: ys) = ys := by
  unfold lastSeg
  rw [pySplitOn_single_append, pySplitOn_single_not_mem _ _ hy,
    getLastD_append_single]

theorem lastSeg_no_slash (l : List Char) (h : ('/' : Char) ∉ l) : lastSeg l = l := by
  unfold lastSeg
  rw [pySplitOn_single_not_mem _ _ h]
  rfl

-- Occurrence reasoning for multi-character patterns (needed for the date
-- extractor, whose replace operation is occurrence-based).

theorem pySplitOn_no_occurrence (pat l : List Char) (hp : pat ≠ [])
    (h : ∀ n, ¬ pat.isPrefixOf (l.drop n)) : pySplitOn pat l = [l] := by
  induction l with
  | nil => exact pySplitOn_nil _ hp
  | cons c rest ih =>
    have h0 : ¬ pat.isPrefixOf (c :: rest) := by
      have := h 0
      simpa using this
    rw [pySplitOn_neg pat c rest hp h0, ih (fun n => by simpa using h (n + 1))]
    rfl

theorem pySplitOn_pat_append (pat rest : List Char) (hp : pat ≠ []) :
    pySplitOn pat (pat ++ rest) = [] :: pySplitOn pat rest := by
  rw [pySplitOn_pos pat (pat ++ rest) hp
    (List.isPrefixOf_iff_prefix.mpr (List.prefix_append _ _))]
  congr 1
  congr 1
  exact List.drop_left pat rest

theorem pySplitOn_append_pat (pat xs : List Char) (hp : pat ≠ [])
    (h : ∀ n, n < xs.length → ¬ pat.isPrefixOf ((xs ++ pat).drop n)) :
    pySplitOn pat (xs ++ pat) = [xs, []] := by
  induction xs with
  | nil =>
    rw [List.nil_append,
      pySplitOn_pos pat pat hp (List.isPrefixOf_iff_prefix.mpr (List.prefix_refl _)),
      List.drop_length, pySplitOn_nil _ hp]
  | cons c rest ih =>
    have h0 : ¬ pat.isPrefixOf (c :: (rest ++ pat)) := by
      have := h 0 (by simp)
      simpa using this
    rw [show (c :: rest) ++ pat = c :: (rest ++ pat) from rfl,
      pySplitOn_neg pat c (rest ++ pat) hp h0,
      ih (fun n hn => by
        have := h (n + 1) (by simpa using Nat.succ_lt_succ hn)
        simpa using this)]
    rfl

theorem prefix_length_le (pat v : List Char) (h : pat.isPrefixOf v) :
    pat.length ≤ v.length := by
  exact (List.isPrefixOf_iff_prefix.mp h).length_le

theorem no_prefix_short (pat B : List Char) (h : B.length < pat.length) :
    ∀ n, ¬ pat.isPrefixOf (B.drop n) := by
  intro n hpre
  have h1 : pat.length ≤ (B.drop n).length := prefix_length_le _ _ hpre
  rw [List.length_drop] at h1
  omega

theorem prefix_head_eq (c : Char) (t v : List Char) (h : (c :: t).isPrefixOf v) :
    v.head? = some c := by
  obtain ⟨s, hs⟩ := List.isPrefixOf_iff_prefix.mp h
  rw [← hs]
  rfl

/-- No occurrence of a pattern with a non-digit head can start inside the
all-digit region of a concatenation. -/
theorem no_prefix_in_digit_region (c₀ : Char) (t : List Char) (hc : c₀.isDigit = false)
    (A B : List Char) (hA : ∀ ch ∈ A, ch.isDigit = true) :
    ∀ n, n < A.length → ¬ (c₀ :: t).isPrefixOf ((A ++ B).drop n) := by
  intro n hn hpre
  have hd : ((A ++ B).drop n).head? = some c₀ := prefix_head_eq _ _ _ hpre
  have hsplit : (A ++ B).drop n = A.drop n ++ B := List.drop_append_of_le_length (le_of_lt hn)
  have hAn : A.drop n = A.get ⟨n, hn⟩ :: A.drop (n + 1) := List.drop_eq_getElem_cons hn
  rw [hsplit, hAn] at hd
  simp only [List.cons_append, List.head?_cons, Option.some.injEq] at hd
  have : (A.get ⟨n, hn⟩).isDigit = true := hA _ (A.get_mem n hn)
  rw [hd] at this
  rw [hc] at this
  exact Bool.false_ne_true this

theorem no_prefix_digits_append (c₀ : Char) (t : List Char) (hc : c₀.isDigit = false)
    (A B : List Char) (hA : ∀ ch ∈ A, ch.isDigit = true)
    (hB : ∀ n, ¬ (c₀ :: t).isPrefixOf (B.drop n)) :
    ∀ n, ¬ (c₀ :: t).isPrefixOf ((A ++ B).drop n) := by
  intro n
  by_cases hn : n < A.length
  · exact no_prefix_in_digit_region c₀ t hc A B hA n hn
  · have hge : A.length ≤ n := le_of_not_lt hn
    obtain ⟨i, hi⟩ := Nat.exists_eq_add_of_le hge
    rw [hi, List.drop_append]
    exact hB i

theorem pyReplace_strip (pat rest : List Char) (hp : pat ≠ [])
    (h : ∀ n, ¬ pat.isPrefixOf (rest.drop n)) :
    pyReplace pat [] (pat ++ rest) = rest := by
  unfold pyReplace
  rw [if_neg (by simpa [List.isEmpty_iff] using hp), pySplitOn_pat_append pat rest hp,
    pySplitOn_no_occurrence pat rest hp h]
  simp [joinSep]

theorem pyReplace_strip_end (pat xs : List Char) (hp : pat ≠ [])
    (h : ∀ n, n < xs.length → ¬ pat.isPrefixOf ((xs ++ pat).drop n)) :
    pyReplace pat [] (xs ++ pat) = xs := by
  unfold pyReplace
  rw [if_neg (by simpa [List.isEmpty_iff] using hp), pySplitOn_append_pat pat xs hp h]
  simp [joinSep]

theorem toList_append (a b : String) : (a ++ b).toList = a.toList ++ b.toList := by
  simp [String.toList]

/-- On a key of the expected form, the source extractor returns exactly the
date part. -/
theorem file_date_eq_of_digits (p D : String) (hD : ∀ ch ∈ D.toList, ch.isDigit = true) :
    file_date (p ++ "/aggregated_results_" ++ D ++ ".csv") = D := by
  have hkey : (p ++ "/aggregated_results_" ++ D ++ ".csv").toList
      = p.toList ++ '/' :: ("aggregated_results_".toList ++ D.toList ++ ".csv".toList) := by
    rw [toList_append, toList_append, toList_append]
    show p.toList ++ ('/' :: "aggregated_results_".toList) ++ D.toList ++ ".csv".toList = _
    simp [List.append_assoc]
  have hslash : ('/' : Char) ∉ "aggregated_results_".toList ++ D.toList ++ ".csv".toList := by
    intro hmem
    rcases List.mem_append.mp hmem with hmem2 | h3
    · rcases List.mem_append.mp hmem2 with h1 | h2
      · exact absurd h1 (by decide)
      · have := hD _ h2
        rw [show ('/' : Char).isDigit = false from rfl] at this
        exact Bool.false_ne_true this
    · exact absurd h3 (by decide)
  have hAGne : "aggregated_results_".toList ≠ [] := by decide
  have hCSVne : ".csv".toList ≠ [] := by decide
  unfold file_date
  rw [hkey, lastSeg_append _ _ hslash, List.append_assoc,
    pyReplace_strip "aggregated_results_".toList (D.toList ++ ".csv".toList) hAGne
      (by
        apply no_prefix_digits_append 'a' ("aggregated_results_".toList.tail) rfl _ _ hD
        exact no_prefix_short _ _ (by decide)),
    pyReplace_strip_end ".csv".toList D.toList hCSVne
      (by exact no_prefix_in_digit_region '.' (".csv".toList.tail) rfl _ _ hD)]
  rfl

/-- On a key of the expected form, the spec-worded strip-suffix extractor also
returns exactly the date part. -/
theorem date_from_key_spec_eq_of_digits (p D : String)
    (hD : ∀ ch ∈ D.toList, ch.isDigit = true) :
    date_from_key_spec (p ++ "/aggregated_results_" ++ D ++ ".csv") = D := by
  have hkey : (p ++ "/aggregated_results_" ++ D ++ ".csv").toList
      = p.toList ++ '/' :: ("aggregated_results_".toList ++ D.toList ++ ".csv".toList) := by
    rw [toList_append, toList_append, toList_append]
    show p.toList ++ ('/' :: "aggregated_results_".toList) ++ D.toList ++ ".csv".toList = _
    simp [List.append_assoc]
  have hslash : ('/' : Char) ∉ "aggregated_results_".toList ++ D.toList ++ ".csv".toList := by
    intro hmem
    rcases List.mem_append.mp hmem with hmem2 | h3
    · rcases List.mem_append.mp hmem2 with h1 | h2
      · exact absurd h1 (by decide)
      · have := hD _ h2
        rw [show ('/' : Char).isDigit = false from rfl] at this
        exact Bool.false_ne_true this
    · exact absurd h3 (by decide)
  unfold date_from_key_spec
  rw [hkey, lastSeg_append _ _ hslash]
  unfold dropPrefixIf dropSuffixIf dropPrefixIf
  rw [List.append_assoc,
    if_pos (List.isPrefixOf_iff_prefix.mpr (List.prefix_append _ _)),
    List.drop_left]
  rw [List.reverse_append,
    if_pos (List.isPrefixOf_iff_prefix.mpr (List.prefix_append _ _))]
  have hdrop : List.drop (".csv".toList.reverse).length (".csv".toList.reverse ++ D.toList.reverse)
      = D.toList.reverse := List.drop_left _ _
  rw [hdrop, List.reverse_reverse]
  rfl

-- Data model and pipeline operations.

/-- One row of a per-day result file as parsed from CSV, before tagging.
Numeric fields are modelled as rationals. -/
structure RawRow where
  symbol : String
  net_pnl : ℚ
  max_pnl : ℚ
  drawdown : ℚ
deriving DecidableEq

/-- One row of the unified dataset: a raw row tagged with the Date string
derived from its source key. -/
structure ResultRow where
  symbol : String
  net_pnl : ℚ
  max_pnl : ℚ
  drawdown : ℚ
  date : String
deriving DecidableEq

/-- Table parser/tagger: add the constant Date column derived from the source
key to every row of the file (source: df['Date'] = file_date). -/
def tagTable (key : String) (t : List RawRow) : List ResultRow :=
  t.map fun r => ⟨r.symbol, r.net_pnl, r.max_pnl, r.drawdown, file_date key⟩

/-- Concatenator (source: pd.concat(daily_results, ignore_index=True)):
rows of all tagged tables in input order. -/
def concatTables (ts : List (List ResultRow)) : List ResultRow :=
  ts.flatten

/-- The unified dataset built from an ordered sequence of (key, parsed rows)
pairs, as the per-key loop of the source does. -/
def result_df (files : List (String × List RawRow)) : List ResultRow :=
  concatTables (files.map fun f => tagTable f.1 f.2)

/-- The aggregation driver: given the listed result keys and the accessor
fetch-and-parse step, either signal the no-data condition (empty listing, the
st.error/st.stop branch) or build the unified dataset. -/
def loadResults (keys : List String) (fetch : String → List RawRow) :
    Except String (List ResultRow) :=
  if keys.isEmpty then
    Except.error "No combined result CSV files found in S3 bucket."
  else
    Except.ok (result_df (keys.map fun k => (k, fetch k)))

-- String ordering used by pandas groupby (lexicographic by code point,
-- matching Python string comparison).

/-- Lexicographic less-or-equal on character lists by code point. -/
def lexLe : List Char → List Char → Bool
  | [], _ => true
  | _ :: _, [] => false
  | a :: as, b :: bs =>
    if a.toNat < b.toNat then true
    else if b.toNat < a.toNat then false
    else lexLe as bs

/-- Python string less-or-equal (code-point lexicographic). -/
def strLe (a b : String) : Prop :=
  lexLe a.toList b.toList = true

instance : DecidableRel strLe := fun a b =>
  inferInstanceAs (Decidable (lexLe a.toList b.toList = true))

theorem lexLe_total (x y : List Char) : lexLe x y = true ∨ lexLe y x = true := by
  induction x generalizing y with
  | nil => left; rfl
  | cons a as ih =>
    cases y with
    | nil => right; rfl
    | cons b bs =>
      rcases Nat.lt_trichotomy a.toNat b.toNat with h | h | h
      · left; simp [lexLe, h]
      · rcases ih bs with h2 | h2
        · left; simp [lexLe, h, h2]
        · right; simp [lexLe, h.symm, h2]
      · right; simp [lexLe, h]

theorem lexLe_trans (x y z : List Char) (h₁ : lexLe x y = true) (h₂ : lexLe y z = true) :
    lexLe x z = true := by
  induction x generalizing y z with
  | nil => rfl
  | cons a as ih =>
    cases y with
    | nil => simp [lexLe] at h₁
    | cons b bs =>
      cases z with
      | nil => simp [lexLe] at h₂
      | cons c cs =>
        simp only [lexLe] at h₁ h₂ ⊢
        rcases Nat.lt_trichotomy b.toNat c.toNat with hbc | hbc | hbc
        · rcases Nat.lt_trichotomy a.toNat b.toNat with hab | hab | hab
          · simp [Nat.lt_trans hab hbc]
          · simp [hab ▸ hbc]
          · rw [if_neg (Nat.lt_asymm hab), if_pos hab] at h₁
            exact absurd h₁ (by simp)
        · rw [← hbc]
          rcases Nat.lt_trichotomy a.toNat b.toNat with hab | hab | hab
          · simp [hab]
          · rw [if_neg (hab ▸ lt_irrefl _), if_neg (hab ▸ lt_irrefl _)] at h₁
            rw [if_neg (hbc ▸ lt_irrefl _), if_neg (hbc ▸ lt_irrefl _)] at h₂
            rw [if_neg (hab ▸ lt_irrefl _), if_neg (hab ▸ lt_irrefl _)]
            exact ih bs cs h₁ h₂
          · rw [if_neg (Nat.lt_asymm hab), if_pos hab] at h₁
            exact absurd h₁ (by simp)
        · rw [if_neg (Nat.lt_asymm hbc), if_pos hbc] at h₂
          exact absurd h₂ (by simp)

instance : IsTotal String strLe := ⟨fun a b => lexLe_total a.toList b.toList⟩

instance : IsTrans String strLe := ⟨fun a b c => lexLe_trans a.toList b.toList c.toList⟩

-- Summarizer (source: result_df.groupby('Symbol').agg({'Net_PnL': 'sum',
-- 'Max_PnL': 'max', 'Drawdown': 'max'}).rename(...).reset_index()).

/-- First-occurrence deduplication with an accumulator of already seen values
(the semantics of pandas Series.unique and of groupby key collection). -/
def pyUniqueAux (seen : List String) : List String → List String
  | [] => []
  | s :: rest =>
    if s ∈ seen then pyUniqueAux seen rest
    else s :: pyUniqueAux (s :: seen) rest

/-- Distinct values of a string list, first occurrence kept, order preserved. -/
def pyUnique (l : List String) : List String :=
  pyUniqueAux [] l

/-- Group keys of the summarizer: the distinct Symbol values, sorted
ascending, as pandas groupby produces with its default sort=True. -/
def groupKeys (rows : List ResultRow) : List String :=
  List.insertionSort strLe (pyUnique (rows.map fun r => r.symbol))

/-- All rows of the dataset carrying the given Symbol (the group of that
key). -/
def groupOf (rows : List ResultRow) (s : String) : List ResultRow :=
  rows.filter fun r => r.symbol == s

/-- Maximum of a list of rationals (groups are never empty, so the default
value for the empty list is irrelevant). -/
def listMax : List ℚ → ℚ
  | [] => 0
  | x :: xs => xs.foldl max x

/-- One row of the per-symbol summary table. -/
structure SummaryRow where
  symbol : String
  total_net_pnl : ℚ
  max_net_pnl : ℚ
  max_drawdown : ℚ
deriving DecidableEq

/-- The summary aggregates for one Symbol: sum of Net_PnL, max of Max_PnL,
max of Drawdown over the rows of that group. -/
def summaryOf (rows : List ResultRow) (s : String) : SummaryRow :=
  ⟨s, ((groupOf rows s).map fun r => r.net_pnl).sum,
    listMax ((groupOf rows s).map fun r => r.max_pnl),
    listMax ((groupOf rows s).map fun r => r.drawdown)⟩

/-- The summary table: one row per group key, in group-key order. -/
def summary_df (rows : List ResultRow) : List SummaryRow :=
  (groupKeys rows).map (summaryOf rows)

/-- The symbol dropdown of the time-series view
(source: summary_df['Symbol'].unique().tolist()). -/
def symbol_options (rows : List ResultRow) : List String :=
  pyUnique ((summary_df rows).map fun r => r.symbol)

-- Time-series selector (source: filter on Symbol, to_datetime with format
-- %Y%m%d, sort_values('Date')).

/-- A calendar date. -/
structure CalDate where
  year : Nat
  month : Nat
  day : Nat
deriving DecidableEq

/-- Gregorian leap-year test. -/
def isLeap (y : Nat) : Bool :=
  y % 4 == 0 && (y % 100 != 0 || y % 400 == 0)

/-- Number of days in a month. -/
def daysIn (y m : Nat) : Nat :=
  if m = 2 then (if isLeap y then 29 else 28)
  else if m = 4 ∨ m = 6 ∨ m = 9 ∨ m = 11 then 30
  else 31

/-- Numeric value of a digit string. -/
def digitsVal (l : List Char) : Nat :=
  l.foldl (fun a c => a * 10 + (c.toNat - 48)) 0

/-- Parse a Date string under the fixed format YYYYMMDD into a calendar date;
none when the string is not eight digits or not a valid calendar date
(modelling the pd.to_datetime failure). -/
def parseDate (s : String) : Option CalDate :=
  let l := s.toList
  if l.length = 8 ∧ l.all Char.isDigit = true then
    let y := digitsVal (l.take 4)
    let m := digitsVal ((l.drop 4).take 2)
    let d := digitsVal (l.drop 6)
    if 1 ≤ m ∧ m ≤ 12 ∧ 1 ≤ d ∧ d ≤ daysIn y m then some ⟨y, m, d⟩ else none
  else none

/-- Total order key for calendar dates. -/
def dateKey (d : CalDate) : Nat :=
  d.year * 10000 + d.month * 100 + d.day

/-- One row of the per-symbol time-series view: the dataset row with its Date
string replaced by the parsed calendar date. -/
structure ChartRow where
  date : CalDate
  symbol : String
  net_pnl : ℚ
  max_pnl : ℚ
  drawdown : ℚ
deriving DecidableEq

/-- Parse the Date column of one dataset row. -/
def parseRow (r : ResultRow) : Option ChartRow :=
  (parseDate r.date).map fun d => ⟨d, r.symbol, r.net_pnl, r.max_pnl, r.drawdown⟩

/-- Date ordering on chart rows. -/
def dateLe (a b : ChartRow) : Prop :=
  dateKey a.date ≤ dateKey b.date

instance : DecidableRel dateLe := fun a b =>
  inferInstanceAs (Decidable (dateKey a.date ≤ dateKey b.date))

instance : IsTotal ChartRow dateLe := ⟨fun _ _ => Nat.le_total _ _⟩

instance : IsTrans ChartRow dateLe := ⟨fun _ _ _ h₁ h₂ => Nat.le_trans h₁ h₂⟩

/-- Parse the Date column of a whole table at once: all rows or nothing, as
pd.to_datetime applied to a column either converts every value or raises. -/
def parseTable : List ResultRow → Option (List ChartRow)
  | [] => some []
  | r :: rest =>
    match parseRow r, parseTable rest with
    | some cr, some crs => some (cr :: crs)
    | _, _ => none

/-- Time-series selector: filter the rows whose Symbol equals the selection,
parse every Date, sort ascending by date; none when any Date fails to parse
(the whole view aborts). -/
def symbol_df (rows : List ResultRow) (sel : String) : Option (List ChartRow) :=
  (parseTable (rows.filter fun r => r.symbol == sel)).map
    (List.insertionSort dateLe)

-- Plot key index (source: split basename on '_', keep keys with at least
-- three segments, look up the first match for a chosen symbol and date).

/-- One entry of the plot key index. -/
structure PlotEntry where
  key : String
  symbol : String
  date : String
deriving DecidableEq

/-- Parse one image object key: symbol is segment 0 and date is segment 1 of
the underscore-split basename, provided there are at least 3 segments. -/
def plotEntryOf (key : String) : Option PlotEntry :=
  match pySplitOn ['_'] (lastSeg key.toList) with
  | s0 :: s1 :: _ :: _ => some ⟨key, String.mk s0, String.mk s1⟩
  | _ => none

/-- The plot key index in input order; keys with fewer than 3 segments are
silently dropped. -/
def plot_df (keys : List String) : List PlotEntry :=
  keys.filterMap plotEntryOf

/-- Look up the first entry matching the chosen (symbol, date) pair
(source: filtered_plot.iloc[0]). -/
def lookupPlot (entries : List PlotEntry) (s d : String) : Option PlotEntry :=
  entries.find? fun e => e.symbol == s && e.date == d

-- CSV export and re-parse (source: result_df.to_csv(index=False) and
-- pd.read_csv), modelled at the level of cells as character lists.

/-- Serialize a table (header line then data rows) to CSV text: cells joined
by commas, lines joined by newlines, with a trailing newline, as
DataFrame.to_csv(index=False) produces. -/
def to_csv (table : List (List (List Char))) : List Char :=
  joinSep ['\n'] (table.map (joinSep [','])) ++ ['\n']

/-- Parse CSV text back into a table: split into lines, skip blank lines,
split each line on commas, as pd.read_csv does at the data level. -/
def read_csv (s : List Char) : List (List (List Char)) :=
  ((pySplitOn ['\n'] s).filter fun l => !l.isEmpty).map (pySplitOn [','])

/-- Name of the exported CSV file for a given today-string
(source: f-string all_results_{datetime.now().strftime(...)}.csv). -/
def download_file_name (today : String) : String :=
  "all_results_" ++ today ++ ".csv"

-- Properties of first-occurrence deduplication.

theorem mem_pyUniqueAux (seen l : List String) (x : String) :
    x ∈ pyUniqueAux seen l ↔ x ∈ l ∧ x ∉ seen := by
  induction l generalizing seen with
  | nil => simp [pyUniqueAux]
  | cons s rest ih =>
    by_cases hs : s ∈ seen
    · rw [pyUniqueAux, if_pos hs, ih]
      constructor
      · rintro ⟨hl, hn⟩
        exact ⟨List.mem_cons_of_mem _ hl, hn⟩
      · rintro ⟨hl, hn⟩
        rcases List.mem_cons.mp hl with he | hl2
        · exact absurd (he ▸ hs) hn
        · exact ⟨hl2, hn⟩
    · rw [pyUniqueAux, if_neg hs]
      constructor
      · intro hmem
        rcases List.mem_cons.mp hmem with he | htail
        · exact ⟨he ▸ List.mem_cons_self _ _, he ▸ hs⟩
        · have := (ih (s :: seen)).mp htail
          exact ⟨List.mem_cons_of_mem _ this.1,
            fun hm => this.2 (List.mem_cons_of_mem _ hm)⟩
      · rintro ⟨hl, hn⟩
        rcases List.mem_cons.mp hl with he | hl2
        · exact he ▸ List.mem_cons_self _ _
        · by_cases hxs : x = s
          · exact hxs ▸ List.mem_cons_self _ _
          · exact List.mem_cons_of_mem _ ((ih (s :: seen)).mpr
              ⟨hl2, fun hm => (List.mem_cons.mp hm).elim hxs hn⟩)

theorem mem_pyUnique (l : List String) (x : String) : x ∈ pyUnique l ↔ x ∈ l := by
  rw [pyUnique, mem_pyUniqueAux]
  simp

theorem nodup_pyUniqueAux (seen l : List String) : (pyUniqueAux seen l).Nodup := by
  induction l generalizing seen with
  | nil => exact List.nodup_nil
  | cons s rest ih =>
    by_cases hs : s ∈ seen
    · rw [pyUniqueAux, if_pos hs]
      exact ih seen
    · rw [pyUniqueAux, if_neg hs]
      refine List.nodup_cons.mpr ⟨?_, ih (s :: seen)⟩
      intro hmem
      exact ((mem_pyUniqueAux _ _ _).mp hmem).2 (List.mem_cons_self _ _)

theorem nodup_pyUnique (l : List String) : (pyUnique l).Nodup :=
  nodup_pyUniqueAux [] l

theorem pyUniqueAux_of_nodup (seen l : List String) (h : l.Nodup)
    (hdisj : ∀ x ∈ l, x ∉ seen) : pyUniqueAux seen l = l := by
  induction l generalizing seen with
  | nil => rfl
  | cons s rest ih =>
    rw [pyUniqueAux, if_neg (hdisj s (List.mem_cons_self _ _))]
    congr 1
    rcases List.nodup_cons.mp h with ⟨hs, hrest⟩
    refine ih (s :: seen) hrest ?_
    intro x hx hmem
    rcases List.mem_cons.mp hmem with he | hseen
    · exact hs (he ▸ hx)
    · exact hdisj x (List.mem_cons_of_mem _ hx) hseen

theorem pyUnique_of_nodup (l : List String) (h : l.Nodup) : pyUnique l = l :=
  pyUniqueAux_of_nodup [] l h (by simp)

-- Properties of listMax.

theorem foldl_max_init_le (xs : List ℚ) : ∀ a : ℚ, a ≤ xs.foldl max a := by
  induction xs with
  | nil => intro a; exact le_refl a
  | cons y ys ih =>
    intro a
    exact le_trans (le_max_left a y) (ih (max a y))

theorem le_foldl_max_of_mem (xs : List ℚ) : ∀ (a x : ℚ), x ∈ xs → x ≤ xs.foldl max a := by
  induction xs with
  | nil => intro a x hx; exact absurd hx (List.not_mem_nil x)
  | cons y ys ih =>
    intro a x hx
    rw [List.foldl_cons]
    rcases List.mem_cons.mp hx with he | htail
    · rw [he]
      exact le_trans (le_max_right a y) (foldl_max_init_le ys (max a y))
    · exact ih (max a y) x htail

theorem foldl_max_mem (xs : List ℚ) : ∀ a : ℚ, xs.foldl max a ∈ a :: xs := by
  induction xs with
  | nil => intro a; exact List.mem_cons_self _ _
  | cons y ys ih =>
    intro a
    rw [List.foldl_cons]
    have := ih (max a y)
    rcases List.mem_cons.mp this with he | htail
    · rcases max_choice a y with hc | hc
      · rw [he, hc]
        exact List.mem_cons_self _ _
      · rw [he, hc]
        exact List.mem_cons_of_mem _ (List.mem_cons_self _ _)
    · exact List.mem_cons_of_mem _ (List.mem_cons_of_mem _ htail)

theorem listMax_mem (l : List ℚ) (h : l ≠ []) : listMax l ∈ l := by
  cases l with
  | nil => exact absurd rfl h
  | cons x xs =>
    rw [listMax]
    exact foldl_max_mem xs x

theorem le_listMax (l : List ℚ) (x : ℚ) (hx : x ∈ l) : x ≤ listMax l := by
  cases l with
  | nil => exact absurd hx (List.not_mem_nil x)
  | cons y ys =>
    rw [listMax]
    rcases List.mem_cons.mp hx with he | htail
    · exact he ▸ foldl_max_init_le ys y
    · exact le_foldl_max_of_mem ys y x htail

-- Positional description of flatten: rows of the i-th table keep their order
-- and are preceded by all rows of the earlier tables.

theorem flatten_getElem (ts : List (List ResultRow)) :
    ∀ (i j : Nat) (hi : i < ts.length) (hj : j < (ts.get ⟨i, hi⟩).length),
      ts.flatten[((ts.take i).map List.length).sum + j]? =
        some ((ts.get ⟨i, hi⟩).get ⟨j, hj⟩) := by
  induction ts with
  | nil => intro i j hi; exact absurd hi (by simp)
  | cons t ts ih =>
    intro i j hi hj
    cases i with
    | zero =>
      have hj2 : j < t.length := hj
      rw [List.flatten_cons]
      simp only [List.take_zero, List.map_nil, List.sum_nil, Nat.zero_add]
      rw [List.getElem?_append, if_pos hj2]
      show t[j]? = some (t.get ⟨j, hj2⟩)
      exact List.getElem?_eq_getElem hj2
    | succ i =>
      rw [List.flatten_cons]
      have hsum : ((List.take (i + 1) (t :: ts)).map List.length).sum + j
          = t.length + (((ts.take i).map List.length).sum + j) := by
        simp [List.take_succ_cons, Nat.add_assoc]
      rw [hsum, List.getElem?_append]
      rw [if_neg (by omega)]
      have hsub : t.length + (((ts.take i).map List.length).sum + j) - t.length
          = ((ts.take i).map List.length).sum + j := by omega
      rw [hsub]
      exact ih i j (Nat.lt_of_succ_lt_succ hi) hj

-- Group keys and summary lookup.

theorem mem_groupKeys (rows : List ResultRow) (s : String) :
    s ∈ groupKeys rows ↔ s ∈ rows.map (fun r => r.symbol) := by
  unfold groupKeys
  rw [(List.perm_insertionSort strLe _).mem_iff, mem_pyUnique]

theorem nodup_groupKeys (rows : List ResultRow) : (groupKeys rows).Nodup :=
  (List.perm_insertionSort strLe _).nodup_iff.mpr (nodup_pyUnique _)

theorem summaryOf_symbol (rows : List ResultRow) (s : String) :
    (summaryOf rows s).symbol = s := rfl

theorem find?_map_summaryOf (rows : List ResultRow) (keys : List String) (s : String)
    (hs : s ∈ keys) :
    (keys.map (summaryOf rows)).find? (fun r => r.symbol == s) = some (summaryOf rows s) := by
  induction keys with
  | nil => exact absurd hs (List.not_mem_nil s)
  | cons k rest ih =>
    rw [List.map_cons]
    by_cases hk : k = s
    · subst hk
      exact List.find?_cons_of_pos _ (by simp [summaryOf])
    · rw [List.find?_cons_of_neg _ (by simp [summaryOf, hk])]
      exact ih ((List.mem_cons.mp hs).resolve_left fun he => hk he.symm)

-- Parsing a whole filtered table.

theorem parseTable_sound (l : List ResultRow) (out : List ChartRow)
    (h : parseTable l = some out) : ∀ cr ∈ out, ∃ r ∈ l, parseRow r = some cr := by
  induction l generalizing out with
  | nil =>
    rw [parseTable] at h
    cases h
    intro cr hcr
    exact absurd hcr (List.not_mem_nil cr)
  | cons r rest ih =>
    rw [parseTable] at h
    cases hr : parseRow r with
    | none => rw [hr] at h; exact absurd h (by simp)
    | some cr0 =>
      cases hrest : parseTable rest with
      | none => rw [hr, hrest] at h; exact absurd h (by simp)
      | some crs =>
        rw [hr, hrest] at h
        simp only [Option.some.injEq] at h
        intro cr hcr
        rw [← h] at hcr
        rcases List.mem_cons.mp hcr with he | htail
        · exact ⟨r, List.mem_cons_self _ _, he ▸ hr⟩
        · obtain ⟨r2, hr2, hp2⟩ := ih crs hrest cr htail
          exact ⟨r2, List.mem_cons_of_mem _ hr2, hp2⟩

theorem parseRow_symbol (r : ResultRow) (cr : ChartRow) (h : parseRow r = some cr) :
    cr.symbol = r.symbol := by
  unfold parseRow at h
  cases hd : parseDate r.date with
  | none => rw [hd] at h; exact absurd h (by simp)
  | some d =>
    rw [hd] at h
    have h2 : some (ChartRow.mk d r.symbol r.net_pnl r.max_pnl r.drawdown) = some cr := h
    injection h2 with h3
    rw [← h3]

-- Join/split lemmas for the CSV round trip.

theorem joinSep_ne_nil (sep : List Char) (parts : List (List Char)) (hne : parts ≠ [])
    (hcells : ∀ p ∈ parts, p ≠ []) : joinSep sep parts ≠ [] := by
  cases parts with
  | nil => exact absurd rfl hne
  | cons p rest =>
    cases rest with
    | nil => exact hcells p (List.mem_cons_self _ _)
    | cons q rest2 =>
      rw [joinSep]
      intro hcontra
      rcases List.append_eq_nil.mp (List.append_eq_nil.mp hcontra).1 with ⟨hp, _⟩
      exact hcells p (List.mem_cons_self _ _) hp

theorem not_mem_joinSep (x : Char) (sep : List Char) (parts : List (List Char))
    (hs : x ∉ sep) (hp : ∀ p ∈ parts, x ∉ p) : x ∉ joinSep sep parts := by
  induction parts with
  | nil =>
    intro hmem
    exact List.not_mem_nil x hmem
  | cons p rest ih =>
    cases rest with
    | nil => exact hp p (List.mem_cons_self _ _)
    | cons q rest2 =>
      rw [joinSep]
      intro hmem
      rcases List.mem_append.mp hmem with hmem1 | hmem2
      · rcases List.mem_append.mp hmem1 with hmem3 | hmem4
        · exact hp p (List.mem_cons_self _ _) hmem3
        · exact hs hmem4
      · exact ih (fun p2 hp2 => hp p2 (List.mem_cons_of_mem _ hp2)) hmem2

theorem split_join_single (c : Char) (parts : List (List Char)) (hne : parts ≠ [])
    (h : ∀ p ∈ parts, c ∉ p) : pySplitOn [c] (joinSep [c] parts) = parts := by
  induction parts with
  | nil => exact absurd rfl hne
  | cons p rest ih =>
    cases rest with
    | nil =>
      rw [joinSep]
      exact pySplitOn_single_not_mem c p (h p (List.mem_cons_self _ _))
    | cons q rest2 =>
      rw [joinSep]
      have hassoc : p ++ [c] ++ joinSep [c] (q :: rest2)
          = p ++ c :: joinSep [c] (q :: rest2) := by
        rw [List.append_assoc]
        rfl
      rw [hassoc, pySplitOn_single_append,
        pySplitOn_single_not_mem c p (h p (List.mem_cons_self _ _)),
        ih (by simp) (fun p2 hp2 => h p2 (List.mem_cons_of_mem _ hp2))]
      rfl

theorem joinSep_append_nil (sep : List Char) (xs : List (List Char)) (hne : xs ≠ []) :
    joinSep sep (xs ++ [[]]) = joinSep sep xs ++ sep := by
  induction xs with
  | nil => exact absurd rfl hne
  | cons x rest ih =>
    cases rest with
    | nil =>
      show joinSep sep [x, []] = joinSep sep [x] ++ sep
      rw [joinSep, joinSep, joinSep]
      simp
    | cons y rest2 =>
      show joinSep sep (x :: ((y :: rest2) ++ [[]])) = joinSep sep (x :: y :: rest2) ++ sep
      have hcons : (y :: rest2) ++ [[]] = y :: (rest2 ++ [[]]) := rfl
      rw [joinSep]
      · rw [show x :: ((y :: rest2) ++ [[]]) = x :: y :: (rest2 ++ [[]]) from rfl]
        rw [show joinSep sep (x :: y :: (rest2 ++ [[]]))
            = x ++ sep ++ joinSep sep (y :: (rest2 ++ [[]])) from rfl]
        rw [show (y :: (rest2 ++ [[]])) = (y :: rest2) ++ [[]] from rfl, ih (by simp)]
        simp [List.append_assoc]

-- Concrete data used by the spec: two source files, one AAPL row each.

/-- The two-file example of the spec: file A dated 20250101 with row
(AAPL, 10.0, 15.0, -2.0), file B dated 20250102 with row (AAPL, 5.0, 8.0, -1.0). -/
def exampleFiles : List (String × List RawRow) :=
  [("combine_results/aggregated_results_20250101.csv", [⟨"AAPL", 10, 15, -2⟩]),
   ("combine_results/aggregated_results_20250102.csv", [⟨"AAPL", 5, 8, -1⟩])]

/-- The unified dataset of the two-file example. -/
def exampleRows : List ResultRow :=
  result_df exampleFiles

-- Claims.

/-- C2, counterexample: the claim says the extractor strips the literal prefix
aggregated_results_ and the literal suffix .csv from the last path segment of
every key.  On the key x/aggregated_results_a.csvb.csv stripping prefix and
suffix leaves a.csvb, but the source code removes every occurrence of .csv
(Python str.replace), returning ab, so the claim as stated is false. -/
theorem C2_counterexample :
    file_date "x/aggregated_results_a.csvb.csv" = "ab" ∧
    date_from_key_spec "x/aggregated_results_a.csvb.csv" = "a.csvb" ∧
    file_date "x/aggregated_results_a.csvb.csv"
      ≠ date_from_key_spec "x/aggregated_results_a.csvb.csv" := by
  refine ⟨by decide, by decide, by decide⟩

/-- C2, amended: the extractor takes the last path segment and removes every
occurrence of the literal aggregated_results_ and then of the literal .csv
(not only a leading or trailing one); on every key whose last segment has the
expected form aggregated_results_D.csv with D a digit string it therefore
yields exactly D, agreeing there with prefix/suffix stripping; extraction is
total, no error is raised. -/
theorem C2_extract_date (p D : String) (hD : ∀ ch ∈ D.toList, ch.isDigit = true) :
    file_date (p ++ "/aggregated_results_" ++ D ++ ".csv") = D ∧
    date_from_key_spec (p ++ "/aggregated_results_" ++ D ++ ".csv") = D :=
  ⟨file_date_eq_of_digits p D hD, date_from_key_spec_eq_of_digits p D hD⟩

/-- C2 witness: the amended theorem applied to a concrete well-formed key. -/
theorem C2_extract_date_witness :
    (∀ ch ∈ "20250101".toList, ch.isDigit = true) ∧
    file_date ("combine_results" ++ "/aggregated_results_" ++ "20250101" ++ ".csv")
      = "20250101" ∧
    date_from_key_spec ("combine_results" ++ "/aggregated_results_" ++ "20250101" ++ ".csv")
      = "20250101" :=
  ⟨by decide, (C2_extract_date "combine_results" "20250101" (by decide)).1,
    (C2_extract_date "combine_results" "20250101" (by decide)).2⟩

/-- C3: every row of the unified dataset carries as its Date the date
extracted from the source key of the file that row came from, and within one
tagged table the added Date column is constant across rows. -/
theorem C3_date_tagging (files : List (String × List RawRow)) :
    (∀ r ∈ result_df files,
      ∃ f ∈ files, r ∈ tagTable f.1 f.2 ∧ r.date = file_date f.1) ∧
    (∀ f ∈ files, ∀ r₁ ∈ tagTable f.1 f.2, ∀ r₂ ∈ tagTable f.1 f.2,
      r₁.date = r₂.date) := by
  constructor
  · intro r hr
    rw [result_df, concatTables] at hr
    obtain ⟨tbl, htbl, hrtbl⟩ := List.mem_flatten.mp hr
    obtain ⟨f, hf, hfe⟩ := List.mem_map.mp htbl
    refine ⟨f, hf, hfe ▸ hrtbl, ?_⟩
    rw [← hfe] at hrtbl
    rw [tagTable] at hrtbl
    obtain ⟨raw, _, hre⟩ := List.mem_map.mp hrtbl
    rw [← hre]
  · intro f hf r₁ h₁ r₂ h₂
    rw [tagTable] at h₁ h₂
    obtain ⟨raw1, _, he1⟩ := List.mem_map.mp h₁
    obtain ⟨raw2, _, he2⟩ := List.mem_map.mp h₂
    rw [← he1, ← he2]

/-- C3 witness: the provenance statement applied to a concrete row of the
two-file example dataset. -/
theorem C3_date_tagging_witness :
    (⟨"AAPL", 10, 15, -2, "20250101"⟩ : ResultRow) ∈ result_df exampleFiles ∧
    ∃ f ∈ exampleFiles, (⟨"AAPL", 10, 15, -2, "20250101"⟩ : ResultRow) ∈ tagTable f.1 f.2 ∧
      (⟨"AAPL", 10, 15, -2, "20250101"⟩ : ResultRow).date = file_date f.1 :=
  ⟨by decide, (C3_date_tagging exampleFiles).1 _ (by decide)⟩

/-- C4: the concatenator output of a non-empty sequence of tagged tables has
exactly the sum of the input row counts, and the j-th row of the i-th input
table sits at position (total length of the earlier tables) + j, so rows
appear in input order. -/
theorem C4_concat_order (ts : List (List ResultRow)) (_hne : ts ≠ []) (i j : Nat)
    (hi : i < ts.length) (hj : j < (ts.get ⟨i, hi⟩).length) :
    (concatTables ts).length = (ts.map List.length).sum ∧
    (concatTables ts)[((ts.take i).map List.length).sum + j]?
      = some ((ts.get ⟨i, hi⟩).get ⟨j, hj⟩) := by
  have hlen : (concatTables ts).length = (ts.map List.length).sum := by
    rw [concatTables]
    exact List.length_flatten ts
  exact ⟨hlen, flatten_getElem ts i j hi hj⟩

/-- C4 witness: two concrete tables of one and two rows; total length 3 and
the second row of the second table sits at position 2. -/
theorem C4_concat_order_witness :
    (concatTables [[⟨"A", 1, 2, 3, "x"⟩],
        [⟨"B", 4, 5, 6, "y"⟩, ⟨"C", 7, 8, 9, "z"⟩]]).length = 3 ∧
    (concatTables [[⟨"A", 1, 2, 3, "x"⟩],
        [⟨"B", 4, 5, 6, "y"⟩, ⟨"C", 7, 8, 9, "z"⟩]])[2]?
      = some ⟨"C", 7, 8, 9, "z"⟩ := by
  have h := C4_concat_order
    [[⟨"A", 1, 2, 3, "x"⟩], [⟨"B", 4, 5, 6, "y"⟩, ⟨"C", 7, 8, 9, "z"⟩]]
    (by decide) 1 1 (by decide) (by decide)
  constructor
  · rw [h.1]
    decide
  · exact h.2

/-- C7: with an empty key listing the aggregation short-circuits to the
no-data message for the current render and no unified dataset is built; with
a non-empty listing it builds the unified dataset from the fetched files. -/
theorem C7_empty_listing (keys : List String) (fetch : String → List RawRow) :
    (keys = [] → loadResults keys fetch
      = Except.error "No combined result CSV files found in S3 bucket.") ∧
    (keys ≠ [] → loadResults keys fetch
      = Except.ok (result_df (keys.map fun k => (k, fetch k)))) := by
  constructor
  · intro h
    subst h
    rfl
  · intro h
    rw [loadResults, if_neg (by simpa [List.isEmpty_iff] using h)]

/-- C7 witness: the empty listing applied concretely. -/
theorem C7_empty_listing_witness :
    loadResults [] (fun _ => [])
      = Except.error "No combined result CSV files found in S3 bucket." :=
  (C7_empty_listing [] (fun _ => [])).1 rfl

/-- The Symbol column of the summary table is exactly the group-key list. -/
theorem summary_symbols (rows : List ResultRow) :
    ((summary_df rows).map fun r => r.symbol) = groupKeys rows := by
  rw [summary_df, List.map_map]
  have hcomp : ((fun (r : SummaryRow) => r.symbol) ∘ summaryOf rows) = fun k => k :=
    funext fun k => rfl
  rw [hcomp]
  exact List.map_id _

/-- C1: for every unified dataset and every Symbol occurring in it, the
summary row found for that Symbol has Total Net PnL equal to the arithmetic
sum of Net_PnL over all rows with that Symbol, Max Net PnL equal to the
maximum of Max_PnL over those rows, and Max Drawdown equal to the maximum of
Drawdown over those rows (maximum characterized as a member that bounds all
members). -/
theorem C1_summary_values (rows : List ResultRow) (s : String)
    (hs : s ∈ rows.map fun r => r.symbol) :
    (summary_df rows).find? (fun r => r.symbol == s) = some (summaryOf rows s) ∧
    (summaryOf rows s).total_net_pnl = ((groupOf rows s).map fun r => r.net_pnl).sum ∧
    ((summaryOf rows s).max_net_pnl ∈ (groupOf rows s).map fun r => r.max_pnl) ∧
    (∀ x ∈ (groupOf rows s).map fun r => r.max_pnl, x ≤ (summaryOf rows s).max_net_pnl) ∧
    ((summaryOf rows s).max_drawdown ∈ (groupOf rows s).map fun r => r.drawdown) ∧
    (∀ x ∈ (groupOf rows s).map fun r => r.drawdown, x ≤ (summaryOf rows s).max_drawdown) := by
  obtain ⟨r0, hr0, hr0s⟩ := List.mem_map.mp hs
  have hr0g : r0 ∈ groupOf rows s := by
    rw [groupOf]
    exact List.mem_filter.mpr ⟨hr0, by simp [hr0s]⟩
  have hgne1 : ((groupOf rows s).map fun r => r.max_pnl) ≠ [] :=
    List.ne_nil_of_mem (List.mem_map.mpr ⟨r0, hr0g, rfl⟩)
  have hgne2 : ((groupOf rows s).map fun r => r.drawdown) ≠ [] :=
    List.ne_nil_of_mem (List.mem_map.mpr ⟨r0, hr0g, rfl⟩)
  refine ⟨?_, rfl, listMax_mem _ hgne1, fun x hx => le_listMax _ x hx,
    listMax_mem _ hgne2, fun x hx => le_listMax _ x hx⟩
  rw [summary_df]
  exact find?_map_summaryOf rows (groupKeys rows) s ((mem_groupKeys rows s).mpr hs)

/-- C1 witness: on the two-file AAPL example the summary table is the single
row (AAPL, Total Net PnL 15, Max Net PnL 15, Max Drawdown -1), and the lookup
statement holds there. -/
theorem C1_summary_values_witness :
    ("AAPL" ∈ exampleRows.map fun r => r.symbol) ∧
    (summary_df exampleRows).find? (fun r => r.symbol == "AAPL")
      = some (summaryOf exampleRows "AAPL") ∧
    summary_df exampleRows = [⟨"AAPL", 15, 15, -1⟩] := by
  refine ⟨by decide, (C1_summary_values exampleRows "AAPL" (by decide)).1, ?_⟩
  have hk : groupKeys exampleRows = ["AAPL"] := by decide
  have hg : groupOf exampleRows "AAPL"
      = [⟨"AAPL", 10, 15, -2, "20250101"⟩, ⟨"AAPL", 5, 8, -1, "20250102"⟩] := by decide
  rw [summary_df, hk, List.map_cons, List.map_nil]
  rw [summaryOf, hg]
  simp only [List.map_cons, List.map_nil]
  have hsum : ([(10 : ℚ), 5] : List ℚ).sum = 15 := by
    rw [List.sum_cons, List.sum_cons, List.sum_nil]
    norm_num
  have hmax1 : listMax [(15 : ℚ), 8] = 15 := by decide
  have hmax2 : listMax [(-2 : ℚ), -1] = -1 := by decide
  rw [hsum, hmax1, hmax2]

/-- C5: the summary contains exactly one row per distinct Symbol of the
unified dataset: its Symbol column is duplicate-free and a Symbol appears in
it exactly when it appears in the dataset. -/
theorem C5_one_row_per_symbol (rows : List ResultRow) :
    ((summary_df rows).map fun r => r.symbol).Nodup ∧
    ∀ s, ((s ∈ (summary_df rows).map fun r => r.symbol) ↔ s ∈ rows.map fun r => r.symbol) := by
  rw [summary_symbols]
  exact ⟨nodup_groupKeys rows, fun s => mem_groupKeys rows s⟩

/-- C10: the summary rows are ordered lexicographically ascending by Symbol
(the deterministic sorted group order of pandas groupby), and the symbol
dropdown of the time-series view lists the symbols in that same order. -/
theorem C10_summary_order (rows : List ResultRow) :
    List.Sorted strLe ((summary_df rows).map fun r => r.symbol) ∧
    symbol_options rows = (summary_df rows).map fun r => r.symbol := by
  rw [symbol_options, summary_symbols]
  constructor
  · rw [groupKeys]
    exact List.sorted_insertionSort strLe _
  · exact pyUnique_of_nodup _ (nodup_groupKeys rows)

/-- C6: for a dataset whose selected rows all parse under YYYYMMDD, the
time-series selector returns exactly the rows whose Symbol equals the
selection, with dates parsed, sorted ascending by date. -/
theorem C6_selector (rows : List ResultRow) (sel : String) (parsed : List ChartRow)
    (h : parseTable (rows.filter fun r => r.symbol == sel) = some parsed) :
    symbol_df rows sel = some (List.insertionSort dateLe parsed) ∧
    (List.insertionSort dateLe parsed).Perm parsed ∧
    List.Sorted dateLe (List.insertionSort dateLe parsed) ∧
    ∀ cr ∈ List.insertionSort dateLe parsed, cr.symbol = sel := by
  have h1 : symbol_df rows sel = some (List.insertionSort dateLe parsed) := by
    rw [symbol_df, h]
    rfl
  refine ⟨h1, List.perm_insertionSort dateLe parsed,
    List.sorted_insertionSort dateLe parsed, ?_⟩
  intro cr hcr
  have hcr2 : cr ∈ parsed := (List.perm_insertionSort dateLe parsed).mem_iff.mp hcr
  obtain ⟨r, hr, hpr⟩ := parseTable_sound _ _ h cr hcr2
  rw [parseRow_symbol r cr hpr]
  exact eq_of_beq (List.mem_filter.mp hr).2

/-- C6 witness: on the two-file AAPL example the selector returns the rows of
2025-01-01 (Net PnL 10) and 2025-01-02 (Net PnL 5), in that order. -/
theorem C6_selector_witness :
    parseTable (exampleRows.filter fun r => r.symbol == "AAPL")
      = some [⟨⟨2025, 1, 1⟩, "AAPL", 10, 15, -2⟩, ⟨⟨2025, 1, 2⟩, "AAPL", 5, 8, -1⟩] ∧
    symbol_df exampleRows "AAPL"
      = some (List.insertionSort dateLe
          [⟨⟨2025, 1, 1⟩, "AAPL", 10, 15, -2⟩, ⟨⟨2025, 1, 2⟩, "AAPL", 5, 8, -1⟩]) ∧
    List.insertionSort dateLe
        [(⟨⟨2025, 1, 1⟩, "AAPL", 10, 15, -2⟩ : ChartRow), ⟨⟨2025, 1, 2⟩, "AAPL", 5, 8, -1⟩]
      = [⟨⟨2025, 1, 1⟩, "AAPL", 10, 15, -2⟩, ⟨⟨2025, 1, 2⟩, "AAPL", 5, 8, -1⟩] :=
  ⟨by decide,
    (C6_selector exampleRows "AAPL"
      [⟨⟨2025, 1, 1⟩, "AAPL", 10, 15, -2⟩, ⟨⟨2025, 1, 2⟩, "AAPL", 5, 8, -1⟩] (by decide)).1,
    by decide⟩

-- Plot-key index lemmas.

theorem plotEntryOf_none_iff (k : String) :
    plotEntryOf k = none ↔ (pySplitOn ['_'] (lastSeg k.toList)).length < 3 := by
  rw [plotEntryOf]
  rcases hsplit : pySplitOn ['_'] (lastSeg k.toList) with _ | ⟨s0, _ | ⟨s1, _ | ⟨s2, rest⟩⟩⟩
  · simp
  · simp
  · simp
  · simp

theorem plotEntryOf_some_spec (k : String) (e : PlotEntry) (h : plotEntryOf k = some e) :
    e.key = k ∧
    (pySplitOn ['_'] (lastSeg k.toList))[0]? = some e.symbol.toList ∧
    (pySplitOn ['_'] (lastSeg k.toList))[1]? = some e.date.toList := by
  rw [plotEntryOf] at h
  rcases hsplit : pySplitOn ['_'] (lastSeg k.toList) with _ | ⟨s0, _ | ⟨s1, _ | ⟨s2, rest⟩⟩⟩ <;>
    rw [hsplit] at h
  · exact absurd h (by simp)
  · exact absurd h (by simp)
  · exact absurd h (by simp)
  · simp only [Option.some.injEq] at h
    rw [← h]
    exact ⟨rfl, rfl, rfl⟩

/-- C8: the plot key index records an entry exactly for the keys whose
basename splits on underscores into at least three segments (symbol is
segment 0 and date is segment 1, the original key is kept, keys with fewer
segments are dropped), and the (symbol, date) lookup returns the first
matching entry in input order: every entry before the result fails to
match. -/
theorem C8_plot_index (keys : List String) (s d : String) :
    (∀ k, plotEntryOf k = none ↔ (pySplitOn ['_'] (lastSeg k.toList)).length < 3) ∧
    (∀ k e, plotEntryOf k = some e → e.key = k ∧
      (pySplitOn ['_'] (lastSeg k.toList))[0]? = some e.symbol.toList ∧
      (pySplitOn ['_'] (lastSeg k.toList))[1]? = some e.date.toList) ∧
    (∀ k ∈ keys, ((∃ e ∈ plot_df keys, e.key = k) ↔ plotEntryOf k ≠ none)) ∧
    (∀ e, lookupPlot (plot_df keys) s d = some e ↔
      (e.symbol = s ∧ e.date = d ∧ ∃ pre post, plot_df keys = pre ++ e :: post ∧
        ∀ e₂ ∈ pre, ¬ (e₂.symbol = s ∧ e₂.date = d))) := by
  refine ⟨plotEntryOf_none_iff, plotEntryOf_some_spec, ?_, ?_⟩
  · intro k hk
    constructor
    · rintro ⟨e, he, hek⟩
      obtain ⟨k2, _, he2⟩ := List.mem_filterMap.mp he
      have hkey := (plotEntryOf_some_spec k2 e he2).1
      have hkk : k = k2 := by rw [← hek, hkey]
      rw [hkk, he2]
      simp
    · intro hne
      cases hpe : plotEntryOf k with
      | none => exact absurd hpe hne
      | some e =>
        refine ⟨e, List.mem_filterMap.mpr ⟨k, hk, hpe⟩, (plotEntryOf_some_spec k e hpe).1⟩
  · intro e
    rw [lookupPlot, List.find?_eq_some]
    constructor
    · rintro ⟨hp, pre, post, heq, hall⟩
      rw [Bool.and_eq_true, beq_iff_eq, beq_iff_eq] at hp
      refine ⟨hp.1, hp.2, pre, post, heq, ?_⟩
      intro e₂ he₂ hcon
      have hfalse := hall e₂ he₂
      rw [Bool.not_eq_true'] at hfalse
      have htrue : (e₂.symbol == s && e₂.date == d) = true := by
        rw [Bool.and_eq_true, beq_iff_eq, beq_iff_eq]
        exact hcon
      rw [hfalse] at htrue
      exact Bool.false_ne_true htrue
    · rintro ⟨hs1, hd1, pre, post, heq, hall⟩
      refine ⟨?_, pre, post, heq, ?_⟩
      · rw [Bool.and_eq_true, beq_iff_eq, beq_iff_eq]
        exact ⟨hs1, hd1⟩
      · intro a ha
        cases hb : (a.symbol == s && a.date == d) with
        | false => rfl
        | true =>
          rw [Bool.and_eq_true, beq_iff_eq, beq_iff_eq] at hb
          exact absurd hb (hall a ha)

/-- C8 witness: on the two BEL plot keys of the spec, the index entry for the
first key is (BEL, 20250407), and the lookup for (BEL, 20250407) resolves to
that first key with nothing before it matching. -/
theorem C8_plot_index_witness :
    lookupPlot (plot_df ["combine_results_graph/BEL_20250407_plot.png",
        "combine_results_graph/BEL_20250408_plot.png"]) "BEL" "20250407"
      = some ⟨"combine_results_graph/BEL_20250407_plot.png", "BEL", "20250407"⟩ ∧
    ((⟨"combine_results_graph/BEL_20250407_plot.png", "BEL", "20250407"⟩ : PlotEntry).symbol
        = "BEL" ∧
      (⟨"combine_results_graph/BEL_20250407_plot.png", "BEL", "20250407"⟩ : PlotEntry).date
        = "20250407" ∧
      ∃ pre post, plot_df ["combine_results_graph/BEL_20250407_plot.png",
          "combine_results_graph/BEL_20250408_plot.png"]
        = pre ++ (⟨"combine_results_graph/BEL_20250407_plot.png", "BEL", "20250407"⟩ : PlotEntry)
            :: post ∧
        ∀ e₂ ∈ pre, ¬ (e₂.symbol = "BEL" ∧ e₂.date = "20250407")) :=
  ⟨by decide,
    ((C8_plot_index ["combine_results_graph/BEL_20250407_plot.png",
        "combine_results_graph/BEL_20250408_plot.png"] "BEL" "20250407").2.2.2
      ⟨"combine_results_graph/BEL_20250407_plot.png", "BEL", "20250407"⟩).mp (by decide)⟩

/-- Re-parsing the serialized form of a table recovers the table, provided no
cell is empty or contains a separator character. -/
theorem read_csv_to_csv (T : List (List (List Char))) (hne : T ≠ [])
    (h : ∀ line ∈ T, line ≠ [] ∧ ∀ cell ∈ line,
        cell ≠ [] ∧ (',' : Char) ∉ cell ∧ ('\n' : Char) ∉ cell) :
    read_csv (to_csv T) = T := by
  have hmapne : T.map (joinSep [',']) ≠ [] := by
    cases T with
    | nil => exact absurd rfl hne
    | cons a t => simp
  have hlines_nonl : ∀ p ∈ T.map (joinSep [',']) ++ [[]], ('\n' : Char) ∉ p := by
    intro p hp
    rcases List.mem_append.mp hp with hp1 | hp2
    · obtain ⟨line, hline, he⟩ := List.mem_map.mp hp1
      rw [← he]
      exact not_mem_joinSep '\n' [','] line (by decide)
        (fun cell hcell => ((h line hline).2 cell hcell).2.2)
    · have hpnil : p = [] := by simpa using hp2
      rw [hpnil]
      exact List.not_mem_nil _
  have hstep1 : to_csv T = joinSep ['\n'] (T.map (joinSep [',']) ++ [[]]) := by
    rw [to_csv, joinSep_append_nil _ _ hmapne]
  rw [read_csv, hstep1, split_join_single '\n' _ (by simp) hlines_nonl,
    List.filter_append]
  have hfilter1 : (T.map (joinSep [','])).filter (fun l => !l.isEmpty)
      = T.map (joinSep [',']) := by
    rw [List.filter_eq_self]
    intro a ha
    obtain ⟨line, hline, he⟩ := List.mem_map.mp ha
    have hane : a ≠ [] := by
      rw [← he]
      exact joinSep_ne_nil [','] line (h line hline).1
        (fun cell hcell => ((h line hline).2 cell hcell).1)
    cases hae : a.isEmpty with
    | false => rfl
    | true => exact absurd (List.isEmpty_iff.mp hae) hane
  have hfilter2 : ([([] : List Char)]).filter (fun l => !l.isEmpty) = [] := rfl
  rw [hfilter1, hfilter2, List.append_nil, List.map_map]
  have hid : ∀ line ∈ T, (pySplitOn [','] ∘ joinSep [',']) line = id line := by
    intro line hline
    show pySplitOn [','] (joinSep [','] line) = line
    exact split_join_single ',' line (h line hline).1
      (fun cell hcell => ((h line hline).2 cell hcell).2.1)
  rw [List.map_congr_left hid, List.map_id]

/-- C9: exporting a table (header line and data rows with no empty cell and
no separator character inside a cell, the formatting caveat of the claim) and
re-parsing the result with the table parser yields the table back row for
row, and the exported file is named all_results_(today).csv. -/
theorem C9_csv_roundtrip (header : List (List Char)) (rows : List (List (List Char)))
    (today : String)
    (h : ∀ line ∈ header :: rows, line ≠ [] ∧ ∀ cell ∈ line,
        cell ≠ [] ∧ (',' : Char) ∉ cell ∧ ('\n' : Char) ∉ cell) :
    read_csv (to_csv (header :: rows)) = header :: rows ∧
    download_file_name today = "all_results_" ++ today ++ ".csv" :=
  ⟨read_csv_to_csv (header :: rows) (by simp) h, rfl⟩

/-- C9 witness: the round trip on a concrete one-row table with the schema
header, and the concrete export file name. -/
theorem C9_csv_roundtrip_witness :
    (∀ line ∈ [["Symbol".toList, "Net_PnL".toList, "Max_PnL".toList,
        "Drawdown".toList, "Date".toList],
        ["AAPL".toList, "10.0".toList, "15.0".toList, "-2.0".toList, "20250101".toList]],
      line ≠ [] ∧ ∀ cell ∈ line,
        cell ≠ [] ∧ (',' : Char) ∉ cell ∧ ('\n' : Char) ∉ cell) ∧
    read_csv (to_csv (["Symbol".toList, "Net_PnL".toList, "Max_PnL".toList,
        "Drawdown".toList, "Date".toList]
      :: [["AAPL".toList, "10.0".toList, "15.0".toList, "-2.0".toList, "20250101".toList]]))
      = ["Symbol".toList, "Net_PnL".toList, "Max_PnL".toList,
        "Drawdown".toList, "Date".toList]
      :: [["AAPL".toList, "10.0".toList, "15.0".toList, "-2.0".toList, "20250101".toList]] ∧
    download_file_name "20250101" = "all_results_" ++ "20250101" ++ ".csv" :=
  ⟨by decide,
    (C9_csv_roundtrip ["Symbol".toList, "Net_PnL".toList, "Max_PnL".toList,
        "Drawdown".toList, "Date".toList]
      [["AAPL".toList, "10.0".toList, "15.0".toList, "-2.0".toList, "20250101".toList]]
      "20250101" (by decide)).1,
    (C9_csv_roundtrip ["Symbol".toList, "Net_PnL".toList, "Max_PnL".toList,
        "Drawdown".toList, "Date".toList]
      [["AAPL".toList, "10.0".toList, "15.0".toList, "-2.0".toList, "20250101".toList]]
      "20250101" (by decide)).2⟩

/-- C5 witness: the one-row-per-symbol statement instantiated on the two-file
example dataset and the symbol AAPL. -/
theorem C5_one_row_per_symbol_witness :
    ((summary_df exampleRows).map fun r => r.symbol).Nodup ∧
    (("AAPL" ∈ (summary_df exampleRows).map fun r => r.symbol)
      ↔ "AAPL" ∈ exampleRows.map fun r => r.symbol) :=
  ⟨(C5_one_row_per_symbol exampleRows).1, (C5_one_row_per_symbol exampleRows).2 "AAPL"⟩

/-- C10 witness: the ordering statement instantiated on the two-file example
dataset. -/
theorem C10_summary_order_witness :
    List.Sorted strLe ((summary_df exampleRows).map fun r => r.symbol) ∧
    symbol_options exampleRows = (summary_df exampleRows).map fun r => r.symbol :=
  C10_summary_order exampleRows
